import Mathlib

/-!
Shallow embedding of the classical Ruge–Stüben AMG core
(`pyamg/amg_core/ruge_stuben.h`) and verification of its specification.

Modelling conventions, used throughout:

* Machine integers (`I`, bounded in every run considered here) become `ℕ`
  or, where the C++ value can be negative or is subtracted, `ℤ`.
* Floating-point values (`T`, `F`) become `ℚ`.  Division by zero, which
  the C++ leaves to IEEE semantics and the spec declares undefined, is the
  Lean default `x / 0 = 0`; no claim below depends on that case.
* A C++ array read `a[i]` becomes `l.getD i d`; a write becomes `l.set i v`.
  On inputs where the C++ performs only in-bounds accesses these coincide
  with the source semantics (`std::vector<I> v(n)` value-initialises to 0,
  which is the default used for `getD` on the working arrays).
* CSR matrices are kept either as their three flat arrays (`Ap`, `Aj`, `Ax`)
  or, for the strength-of-connection and interpolation routines whose claims
  are row-local, as a list of rows of `(column, value)` pairs.
-/

/-- Tag for fine nodes, `#define F_NODE 0` in the source. -/
def F_NODE : ℕ := 0

/-- Tag for coarse nodes, `#define C_NODE 1` in the source. -/
def C_NODE : ℕ := 1

/-- Tag for unassigned nodes, `#define U_NODE 2` in the source. -/
def U_NODE : ℕ := 2

/-- Modelled from the spec: `mynorm` lives in `linalg.h`, outside the given
source; the spec says `magnitude(x)` returns a real `≥ 0`, which for real
scalars is the absolute value. -/
def mynorm (x : ℚ) : ℚ := |x|

/-- The running maximum computed by `classical_strength_of_connection_min`
for one row: `max_offdiagonal` starts at `0.0` (line 110 of the source) and
folds `max` over `-A[i,j]` for the stored off-diagonal entries of row `i`. -/
def maxOffdiagMin (i : ℕ) (row : List (ℕ × ℚ)) : ℚ :=
  row.foldl (fun acc e => if e.1 ≠ i then max acc (-e.2) else acc) 0

/-- The running maximum computed by `classical_strength_of_connection_abs`
for one row: it starts at `std::numeric_limits<F>::min()` (abstracted as the
parameter `fmin`, a strictly positive constant in C++) and folds `max` over
`|A[i,j]|` for the stored off-diagonal entries of row `i`. -/
def maxOffdiagAbs (fmin : ℚ) (i : ℕ) (row : List (ℕ × ℚ)) : ℚ :=
  row.foldl (fun acc e => if e.1 ≠ i then max acc (mynorm e.2) else acc) fmin

/-- Row `i` of the output of `classical_strength_of_connection_min`:
an entry is emitted when `-A[i,j] >= theta * max_offdiagonal` and it is
off-diagonal, and every stored diagonal entry is always emitted
(lines 122–140 of the source). -/
def socMinRow (theta : ℚ) (i : ℕ) (row : List (ℕ × ℚ)) : List (ℕ × ℚ) :=
  row.flatMap (fun e =>
    (if -e.2 ≥ theta * maxOffdiagMin i row ∧ e.1 ≠ i then [e] else []) ++
    (if e.1 = i then [e] else []))

/-- Row `i` of the output of `classical_strength_of_connection_abs`
(lines 72–90 of the source). -/
def socAbsRow (fmin theta : ℚ) (i : ℕ) (row : List (ℕ × ℚ)) : List (ℕ × ℚ) :=
  row.flatMap (fun e =>
    (if mynorm e.2 ≥ theta * maxOffdiagAbs fmin i row ∧ e.1 ≠ i then [e] else []) ++
    (if e.1 = i then [e] else []))

/-- Helper assembling the rows of the `min` strength matrix starting at row
index `i`. -/
def socMinRows (theta : ℚ) : ℕ → List (List (ℕ × ℚ)) → List (List (ℕ × ℚ))
  | _, [] => []
  | i, r :: rs => socMinRow theta i r :: socMinRows theta (i + 1) rs

/-- Helper assembling the rows of the `abs` strength matrix starting at row
index `i`. -/
def socAbsRows (fmin theta : ℚ) : ℕ → List (List (ℕ × ℚ)) → List (List (ℕ × ℚ))
  | _, [] => []
  | i, r :: rs => socAbsRow fmin theta i r :: socAbsRows fmin theta (i + 1) rs

/-- `classical_strength_of_connection_min` on a matrix given as a list of
rows of `(column, value)` pairs; row `i` of the result is the emitted row
`i` of `S`. -/
def classical_strength_of_connection_min (theta : ℚ)
    (A : List (List (ℕ × ℚ))) : List (List (ℕ × ℚ)) :=
  socMinRows theta 0 A

/-- `classical_strength_of_connection_abs`, with `fmin` standing for
`std::numeric_limits<F>::min()`. -/
def classical_strength_of_connection_abs (fmin theta : ℚ)
    (A : List (List (ℕ × ℚ))) : List (List (ℕ × ℚ)) :=
  socAbsRows fmin theta 0 A

/-- `maximum_row_value` (lines 160–181 of the source): for each row the fold
of `max` over `mynorm` of the stored values, started at
`std::numeric_limits<F>::min()` (abstracted as `fmin`).  The column array
`Aj` is unused, exactly as in the source. -/
def maximum_row_value (fmin : ℚ) (n_row : ℕ) (Ap Aj : List ℕ) (Ax : List ℚ) :
    List ℚ :=
  (List.range n_row).map (fun i =>
    (List.range' (Ap.getD i 0) (Ap.getD (i + 1) 0 - Ap.getD i 0)).foldl
      (fun acc jj => max acc (mynorm (Ax.getD jj 0))) fmin)

/-- First pass of direct interpolation (`rs_direct_interpolation_pass1`,
lines 541–561): the row-pointer of `P`, one entry per C-row, and otherwise
one entry per strong off-diagonal C-neighbour.  `S` is given as rows of
`(column, value)` pairs; the carried `nnz` mirrors the running counter. -/
def pass1Counts (split : List ℕ) : ℕ → ℕ → List (List (ℕ × ℚ)) → List ℕ
  | _, _, [] => []
  | i, nnz, row :: rows =>
    let nnz' := if split.getD i 0 = C_NODE then nnz + 1
      else nnz + row.countP (fun e => split.getD e.1 0 == C_NODE && !(e.1 == i))
    nnz' :: pass1Counts split (i + 1) nnz' rows

/-- Row pointer `Bp` produced by `rs_direct_interpolation_pass1`. -/
def rs_direct_interpolation_pass1 (S : List (List (ℕ × ℚ)))
    (split : List ℕ) : List ℕ :=
  0 :: pass1Counts split 0 0 S

/-- The coarse-grid column map of pass 2: `map[c] = sum of splitting[k]`
over `k < c` (lines 632–636 of the source). -/
def coarseMap (split : List ℕ) (c : ℕ) : ℕ :=
  (List.range c).foldl (fun s k => s + split.getD k 0) 0

/-- Row `i` of `rs_direct_interpolation_pass2` (lines 578–629), before the
coarse-column re-indexing: `[(i, 1)]` for a C-row, and otherwise the
direct-interpolation weights on the strong C-neighbours. -/
def pass2Row (i : ℕ) (Arow Srow : List (ℕ × ℚ)) (split : List ℕ) :
    List (ℕ × ℚ) :=
  if split.getD i 0 = C_NODE then [(i, 1)]
  else
    let strong : ℚ × ℚ := Srow.foldl (fun s e =>
      if split.getD e.1 0 = C_NODE then
        if e.1 ≠ i then
          if e.2 < 0 then (s.1 + e.2, s.2) else (s.1, s.2 + e.2)
        else s
      else s) (0, 0)
    let sum_strong_neg := strong.1
    let sum_strong_pos := strong.2
    let allsums : ℚ × ℚ × ℚ := Arow.foldl (fun s e =>
      if e.1 = i then (s.1 + e.2, s.2.1, s.2.2)
      else if e.2 < 0 then (s.1, s.2.1 + e.2, s.2.2)
      else (s.1, s.2.1, s.2.2 + e.2)) (0, 0, 0)
    let diag0 := allsums.1
    let sum_all_neg := allsums.2.1
    let sum_all_pos := allsums.2.2
    let alpha := sum_all_neg / sum_strong_neg
    let beta0 := sum_all_pos / sum_strong_pos
    let diag := if sum_strong_pos = 0 then diag0 + sum_all_pos else diag0
    let beta := if sum_strong_pos = 0 then 0 else beta0
    let neg_coeff := -alpha / diag
    let pos_coeff := -beta / diag
    Srow.flatMap (fun e =>
      if split.getD e.1 0 = C_NODE then
        if e.1 ≠ i then
          [(e.1, if e.2 < 0 then neg_coeff * e.2 else pos_coeff * e.2)]
        else []
      else [])

/-- Helper assembling the pass-2 rows starting at row index `i`. -/
def pass2Rows (split : List ℕ) :
    ℕ → List (List (ℕ × ℚ)) → List (List (ℕ × ℚ)) → List (List (ℕ × ℚ))
  | _, [], _ => []
  | _, _ :: _, [] => []
  | i, Arow :: Arows, Srow :: Srows =>
    pass2Row i Arow Srow split :: pass2Rows split (i + 1) Arows Srows

/-- `rs_direct_interpolation_pass2`: the rows of `P`, with the final
re-indexing of columns to coarse-grid indices applied
(lines 632–639 of the source). -/
def rs_direct_interpolation_pass2 (A S : List (List (ℕ × ℚ)))
    (split : List ℕ) : List (List (ℕ × ℚ)) :=
  (pass2Rows split 0 A S).map (fun row =>
    row.map (fun e => (coarseMap split e.1, e.2)))

/-- The common argument pack of the two splitting routines: `n` nodes, the
strength matrix `S` and its transpose `T`, both in CSR form (row pointers
and column indices; neither routine reads values). -/
structure SocGraph where
  n : ℕ
  Sp : List ℕ
  Sj : List ℕ
  Tp : List ℕ
  Tj : List ℕ

/-- The flat positions `[Sp[i], Sp[i+1])` of row `i` of `S`. -/
def SRange (g : SocGraph) (i : ℕ) : List ℕ :=
  List.range' (g.Sp.getD i 0) (g.Sp.getD (i + 1) 0 - g.Sp.getD i 0)

/-- The flat positions `[Tp[i], Tp[i+1])` of row `i` of `T`. -/
def TRange (g : SocGraph) (i : ℕ) : List ℕ :=
  List.range' (g.Tp.getD i 0) (g.Tp.getD (i + 1) 0 - g.Tp.getD i 0)

/-- Working state of `cljp_naive_splitting` (lines 370–387 of the source):
the splitting tags, the weights, the per-nonzero edge marks, the
`c_dep_cache` array and the `unassigned` counter. -/
structure CljpState where
  splitting : List ℕ
  weight : List ℚ
  edgemark : List ℤ
  cache : List ℤ
  unassigned : ℤ

/-- The check of the `S`-row of `i` in the selection scan (lines 430–435):
`i` is blocked when some still-unassigned `j` in the row has strictly larger
weight. -/
def cljpBlockedS (g : SocGraph) (st : CljpState) (i : ℕ) : Bool :=
  (SRange g i).any (fun jj =>
    let j := g.Sj.getD jj 0
    st.splitting.getD j 0 == U_NODE &&
      decide (st.weight.getD i 0 < st.weight.getD j 0))

/-- The check of the `T`-row of `i` in the selection scan (lines 438–446). -/
def cljpBlockedT (g : SocGraph) (st : CljpState) (i : ℕ) : Bool :=
  (TRange g i).any (fun jj =>
    let j := g.Tj.getD jj 0
    st.splitting.getD j 0 == U_NODE &&
      decide (st.weight.getD i 0 < st.weight.getD j 0))

/-- Node `i` ends the selection scan with `D[i] = 1` iff it is unassigned
and neither row check blocks it (lines 426–452). -/
def cljpIsCand (g : SocGraph) (st : CljpState) (i : ℕ) : Bool :=
  st.splitting.getD i 0 == U_NODE &&
    !cljpBlockedS g st i && !cljpBlockedT g st i

/-- The list `Dlist` of one selection round, in scan order. -/
def cljpCands (g : SocGraph) (st : CljpState) : List ℕ :=
  (List.range g.n).filter (fun i => cljpIsCand g st i)

/-- One edge step of the P5 update (lines 467–478): clear the edge mark,
decrement the weight of the unassigned influencer `j`, and flip `j` to F
when its weight drops below 1. -/
def p5edge (g : SocGraph) (st : CljpState) (jj : ℕ) : CljpState :=
  let j := g.Sj.getD jj 0
  if st.splitting.getD j 0 == U_NODE && st.edgemark.getD jj 0 != 0 then
    let wj := st.weight.getD j 0 - 1
    let st1 := { st with edgemark := st.edgemark.set jj 0,
                         weight := st.weight.set j wj }
    if wj < 1 then
      { st1 with splitting := st1.splitting.set j F_NODE,
                 unassigned := st1.unassigned - 1 }
    else st1
  else st

/-- One step of the `c_dep_cache` fill of P6 (lines 486–490). -/
def p6cacheStep (g : SocGraph) (c : ℕ) (st : CljpState) (jj : ℕ) : CljpState :=
  let j := g.Tj.getD jj 0
  if st.splitting.getD j 0 == U_NODE then
    { st with cache := st.cache.set j (c : ℤ) }
  else st

/-- One inner edge step of P6 (lines 494–508): when `k` is unassigned, the
edge `kk` is still marked and `k` also depends on `c`, clear the mark,
decrement `weight[k]`, and flip `k` to F when its weight drops below 1. -/
def p6kstep (g : SocGraph) (c : ℕ) (st : CljpState) (kk : ℕ) : CljpState :=
  let k := g.Sj.getD kk 0
  if st.splitting.getD k 0 == U_NODE && st.edgemark.getD kk 0 != 0 then
    if st.cache.getD k (-1) == (c : ℤ) then
      let wk := st.weight.getD k 0 - 1
      let st1 := { st with edgemark := st.edgemark.set kk 0,
                           weight := st.weight.set k wk }
      if wk < 1 then
        { st1 with splitting := st1.splitting.set k F_NODE,
                   unassigned := st1.unassigned - 1 }
      else st1
    else st
  else st

/-- The P6 update for one new C-node `c` (lines 484–510): fill the cache
from the `T`-row of `c`, then run the inner edge steps over the `S`-rows of
every `j` in the `T`-row of `c`. -/
def p6step (g : SocGraph) (st : CljpState) (c : ℕ) : CljpState :=
  let st1 := (TRange g c).foldl (p6cacheStep g c) st
  (TRange g c).foldl (fun s jj =>
    let j := g.Tj.getD jj 0
    (SRange g j).foldl (p6kstep g c) s) st1

/-- One round of the CLJP selection loop (lines 420–511): select the
independent set, mark it C and debit `unassigned`, then run P5 and P6. -/
def cljpPass (g : SocGraph) (st : CljpState) : CljpState :=
  let ds := cljpCands g st
  let st1 := { st with
    splitting := ds.foldl (fun sp c => sp.set c C_NODE) st.splitting,
    unassigned := st.unassigned - ds.length }
  let st2 := ds.foldl (fun s c => (SRange g c).foldl (p5edge g) s) st1
  ds.foldl (p6step g) st2

/-- The `while (unassigned > 0)` selection loop, with explicit fuel; `none`
models non-termination within the given number of rounds. -/
def cljpLoop (g : SocGraph) : ℕ → CljpState → Option CljpState
  | 0, st => if st.unassigned > 0 then none else some st
  | fuel + 1, st =>
    if st.unassigned > 0 then cljpLoop g fuel (cljpPass g st) else some st

/-- The initial weights (lines 408–415): starting from the base weights,
add 1 to `weight[j]` for every stored off-diagonal entry `(i, j)` of `S`. -/
def cljpWeightInit (g : SocGraph) (base : List ℚ) : List ℚ :=
  (List.range g.n).foldl (fun w i =>
    (SRange g i).foldl (fun w jj =>
      let j := g.Sj.getD jj 0
      if i ≠ j then w.set j (w.getD j 0 + 1) else w) w) base

/-- The state at entry of the selection loop, given the base weights
produced by coloring or by the pseudo-random generator. -/
def cljpInit (g : SocGraph) (base : List ℚ) : CljpState :=
  { splitting := List.replicate g.n U_NODE
    weight := cljpWeightInit g base
    edgemark := List.replicate (g.Sp.getD g.n 0) 1
    cache := List.replicate g.n (-1)
    unassigned := (g.n : ℤ) }

/-- The final sweep (lines 519–523): any node still U becomes F. -/
def cljpFinal (st : CljpState) : List ℕ :=
  st.splitting.map (fun v => if v = U_NODE then F_NODE else v)

/-- Modelled from the spec: the state of the C library pseudo-random
generator, reduced to the seed and the number of draws made since `srand`.
The actual `rand()` of the C library is outside the given source; the spec
only requires a deterministic stream for a given seed. -/
def RandState : Type := ℕ × ℕ

/-- Modelled from the spec: `srand(seed)` discards the previous generator
state and restarts the stream at position 0. -/
def srand (seed : ℕ) (_prev : RandState) : RandState := (seed, 0)

/-- Modelled from the spec: a concrete linear-congruential step standing in
for the C library generator. -/
def lcgStep (x : ℕ) : ℕ := (1103515245 * x + 12345) % 2147483648

/-- Modelled from the spec: the value `double(rand())/RAND_MAX ∈ [0, 1]`
drawn at position `p` of the stream seeded with `s`. -/
def randQ (s p : ℕ) : ℚ := ((lcgStep^[p + 1] s) % 32768 : ℕ) / 32767

/-- Modelled from the spec: the `n` successive draws
`double(rand())/RAND_MAX` made from generator state `r`. -/
def randDraws (r : RandState) (n : ℕ) : List ℚ :=
  (List.range n).map (fun i => randQ r.1 (r.2 + i))

/-- Modelled from the spec: `vertex_coloring_mis` lives in `graph.h`,
outside the given source; the spec requires only a deterministic proper
graph coloring of `S`.  This model colors nodes greedily in index order
with the least color not used by an already-colored neighbour. -/
def vertex_coloring_mis (g : SocGraph) : List ℕ :=
  (List.range g.n).foldl (fun cols i =>
    let used := (SRange g i).map (fun jj =>
      let j := g.Sj.getD jj 0
      if j < i then cols.getD j 0 else g.n + 1)
    let c := ((List.range (g.n + 1)).filter (fun c => !used.contains c)).headD 0
    cols ++ [c]) []

/-- The base weights of the coloring branch (lines 392–399):
`coloring[i] / ncolors` with `ncolors = max coloring + 1`. -/
def cljpColorBase (g : SocGraph) : List ℚ :=
  let coloring := vertex_coloring_mis g
  let ncolors := coloring.foldl max 0 + 1
  coloring.map (fun c => (c : ℚ) / (ncolors : ℚ))

/-- `cljp_naive_splitting` (lines 362–525).  The incoming `rng` stands for
the process-wide generator state at call time; `colorflag = 1` uses the
coloring weights, any other value reseeds the generator with the constant
2448422 and draws `n` pseudo-random base weights.  The selection loop is
run with fuel `n`; `none` would mean the loop failed to finish. -/
def cljp_naive_splitting (g : SocGraph) (colorflag : ℕ) (rng : RandState) :
    Option (List ℕ) :=
  let base := if colorflag = 1 then cljpColorBase g
    else randDraws (srand 2448422 rng) g.n
  (cljpLoop g g.n (cljpInit g base)).map cljpFinal

/-- Working state of `rs_cf_splitting` (lines 214–245 of the source):
the measures `lambda`, the bucket structure (`interval_ptr`,
`interval_count`, `index_to_node`, `node_to_index`) and the splitting. -/
structure RsState where
  lam : List ℤ
  ptr : List ℤ
  count : List ℤ
  itn : List ℕ
  nti : List ℕ
  splitting : List ℕ

/-- The measures `lambda[i] = Tp[i+1] - Tp[i]` (lines 217–219). -/
def rsLamInit (g : SocGraph) : List ℤ :=
  (List.range g.n).map (fun i =>
    (g.Tp.getD (i + 1) 0 : ℤ) - (g.Tp.getD i 0 : ℤ))

/-- The counting pass over the measures (lines 231–233):
`interval_count[lambda[i]]++` for every node.  The arrays have length
`n + 1`; like the C++ `std::vector`, unwritten entries are 0. -/
def rsCountPass (g : SocGraph) (lam : List ℤ) : List ℤ :=
  (List.range g.n).foldl (fun c i =>
    let v := (lam.getD i 0).toNat
    c.set v (c.getD v 0 + 1)) (List.replicate (g.n + 1) 0)

/-- The cumulative-sum pass (lines 234–238): `interval_ptr[i] = cumsum` and
`interval_count[i] = 0` for `i < n` only — `interval_ptr[n]` is never
written and `interval_count[n]` is never reset. -/
def rsCumsumPass (g : SocGraph) (count : List ℤ) : List ℤ × List ℤ :=
  let r := (List.range g.n).foldl (fun (s : List ℤ × List ℤ × ℤ) i =>
    let ptr := s.1.set i s.2.2
    let cum := s.2.2 + s.2.1.getD i 0
    (ptr, s.2.1.set i 0, cum)) (List.replicate (g.n + 1) 0, count, 0)
  (r.1, r.2.1)

/-- The placement pass (lines 239–245): node `i` goes to index
`interval_ptr[lambda[i]] + interval_count[lambda[i]]`; both permutation
arrays start value-initialised to 0. -/
def rsPlacePass (g : SocGraph) (lam ptr : List ℤ) (count : List ℤ) :
    List ℕ × List ℕ × List ℤ :=
  (List.range g.n).foldl (fun (s : List ℕ × List ℕ × List ℤ) i =>
    let v := (lam.getD i 0).toNat
    let index := (ptr.getD v 0 + s.2.2.getD v 0).toNat
    (s.1.set index i, s.2.1.set i index, s.2.2.set v (s.2.2.getD v 0 + 1)))
    (List.replicate g.n 0, List.replicate g.n 0, count)

/-- One step of the pre-pass (lines 250–254): a node whose `T`-row is
empty (`lambda = 0`), or is the single entry `i` itself, is pre-assigned
F. -/
def rsPreStep (g : SocGraph) (s : RsState) (i : ℕ) : RsState :=
  if s.lam.getD i 0 = 0 ∨
      (s.lam.getD i 0 = 1 ∧ g.Tj.getD (g.Tp.getD i 0) 0 = i) then
    { s with splitting := s.splitting.set i F_NODE }
  else s

/-- The pre-pass over all nodes. -/
def rsPrePass (g : SocGraph) (st : RsState) : RsState :=
  (List.range g.n).foldl (rsPreStep g) st

/-- The increment move of the main loop (lines 288–306): an unassigned `k`
in the `S`-row of a freshly flipped F-node is moved to the rightmost slot
of its bucket and its measure is incremented, unless already at the cap
`n - 1`. -/
def rsIncStep (g : SocGraph) (st : RsState) (kk : ℕ) : RsState :=
  let k := g.Sj.getD kk 0
  if st.splitting.getD k 0 = U_NODE then
    if st.lam.getD k 0 ≥ (g.n : ℤ) - 1 then st
    else
      let lk := st.lam.getD k 0
      let old_pos := st.nti.getD k 0
      let new_pos := st.ptr.getD lk.toNat 0 + st.count.getD lk.toNat 0 - 1
      let a := st.itn.getD old_pos 0
      let b := st.itn.getD new_pos.toNat 0
      let nti1 := (st.nti.set a new_pos.toNat).set b old_pos
      let itn1 := (st.itn.set old_pos b).set new_pos.toNat a
      let c1 := st.count.set lk.toNat (st.count.getD lk.toNat 0 - 1)
      let c2 := c1.set (lk + 1).toNat (c1.getD (lk + 1).toNat 0 + 1)
      { st with nti := nti1, itn := itn1, count := c2,
                ptr := st.ptr.set (lk + 1).toNat new_pos,
                lam := st.lam.set k (lk + 1) }
  else st

/-- The body run for each `j` in the `T`-row of a new C-node
(lines 278–310): a still-unassigned `j` is flipped to F and the increment
move is run over its `S`-row. -/
def rsTStep (g : SocGraph) (st : RsState) (jj : ℕ) : RsState :=
  let j := g.Tj.getD jj 0
  if st.splitting.getD j 0 = U_NODE then
    let st1 := { st with splitting := st.splitting.set j F_NODE }
    (SRange g j).foldl (rsIncStep g) st1
  else st

/-- The decrement move of the main loop (lines 313–338): an unassigned `j`
in the `S`-row of the new C-node is moved to the leftmost slot of its
bucket and its measure is decremented, unless already 0. -/
def rsDecStep (g : SocGraph) (st : RsState) (jj : ℕ) : RsState :=
  let j := g.Sj.getD jj 0
  if st.splitting.getD j 0 = U_NODE then
    if st.lam.getD j 0 = 0 then st
    else
      let lj := st.lam.getD j 0
      let old_pos := st.nti.getD j 0
      let new_pos := st.ptr.getD lj.toNat 0
      let a := st.itn.getD old_pos 0
      let b := st.itn.getD new_pos.toNat 0
      let nti1 := (st.nti.set a new_pos.toNat).set b old_pos
      let itn1 := (st.itn.set old_pos b).set new_pos.toNat a
      let c1 := st.count.set lj.toNat (st.count.getD lj.toNat 0 - 1)
      let c2 := c1.set (lj - 1).toNat (c1.getD (lj - 1).toNat 0 + 1)
      let p1 := st.ptr.set lj.toNat (st.ptr.getD lj.toNat 0 + 1)
      let p2 := p1.set (lj - 1).toNat
        (p1.getD lj.toNat 0 - c2.getD (lj - 1).toNat 0)
      { st with nti := nti1, itn := itn1, count := c2, ptr := p2,
                lam := st.lam.set j (lj - 1) }
  else st

/-- One iteration of the main loop at cursor `t = top_index`
(lines 257–340): take `i = index_to_node[t]`, shrink its bucket, skip it if
already F, otherwise mark it C and run the `T`-row and `S`-row updates. -/
def rsMainStep (g : SocGraph) (st : RsState) (t : ℕ) : RsState :=
  let i := st.itn.getD t 0
  let li := st.lam.getD i 0
  let st0 := { st with
    count := st.count.set li.toNat (st.count.getD li.toNat 0 - 1) }
  if st0.splitting.getD i 0 = F_NODE then st0
  else
    let st1 := { st0 with splitting := st0.splitting.set i C_NODE }
    let st2 := (TRange g i).foldl (rsTStep g) st1
    (SRange g i).foldl (rsDecStep g) st2

/-- `rs_cf_splitting` (lines 207–341): build the measures and the bucket
structure, pre-assign isolated nodes to F, then run the main loop with the
cursor descending from `n - 1` to `0`; the result is the splitting array. -/
def rs_cf_splitting (g : SocGraph) : List ℕ :=
  let lam := rsLamInit g
  let pc := rsCumsumPass g (rsCountPass g lam)
  let placed := rsPlacePass g lam pc.1 pc.2
  let st0 : RsState :=
    { lam := lam, ptr := pc.1, count := placed.2.2,
      itn := placed.1, nti := placed.2.1,
      splitting := List.replicate g.n U_NODE }
  let st1 := rsPrePass g st0
  ((List.range g.n).reverse.foldl (rsMainStep g) st1).splitting

/-- The flat positions `[Cp[r], Cp[r+1])` of row `r` for a stand-alone CSR
row-pointer array. -/
def rowRange (Cp : List ℕ) (r : ℕ) : List ℕ :=
  List.range' (Cp.getD r 0) (Cp.getD (r + 1) 0 - Cp.getD r 0)

/-- The dependence test of `remove_strong_FF_connections`
(lines 1044–1057 of the source): rows `row` and `j` of `C` share a stored
column that is a C-point. -/
def ffDependence (Cp Cj split : List ℕ) (row j : ℕ) : Bool :=
  (rowRange Cp row).any (fun ii =>
    let m := Cj.getD ii 0
    (split.getD m 0 == C_NODE) &&
      (rowRange Cp j).any (fun kk => Cj.getD kk 0 == m))

/-- One entry step of `remove_strong_FF_connections` (lines 1036–1070):
for a stored entry at flat position `jj` of an F-row, with `j` its column,
zero the value when `j` is an F-point failing the dependence test. -/
def ffEntryStep (Cp Cj split : List ℕ) (row : ℕ) (d : List ℚ) (jj : ℕ) :
    List ℚ :=
  let j := Cj.getD jj 0
  if split.getD j 0 = F_NODE then
    if ffDependence Cp Cj split row j then d else d.set jj 0
  else d

/-- The row step of `remove_strong_FF_connections`: F-rows run the entry
step over their stored positions, other rows are skipped. -/
def ffRowStep (Cp Cj split : List ℕ) (d : List ℚ) (row : ℕ) : List ℚ :=
  if split.getD row 0 = F_NODE then
    (rowRange Cp row).foldl (ffEntryStep Cp Cj split row) d
  else d

/-- `remove_strong_FF_connections` (lines 1024–1073): returns the row
pointer and column indices (untouched by the source) together with the
updated data array. -/
def remove_strong_FF_connections (n : ℕ) (Cp Cj : List ℕ) (data : List ℚ)
    (split : List ℕ) : List ℕ × List ℕ × List ℚ :=
  (Cp, Cj, (List.range n).foldl (ffRowStep Cp Cj split) data)

/-- CSR row pointer of the 4-node path-graph strength matrix of
scenario S6. -/
def pathCp : List ℕ := [0, 2, 5, 8, 10]

/-- CSR column indices of the 4-node path-graph strength matrix. -/
def pathCj : List ℕ := [0, 1, 0, 1, 2, 1, 2, 3, 2, 3]

/-- CSR values of the 4-node path-graph strength matrix. -/
def pathCx : List ℚ := [2, -1, -1, 2, -1, -1, 2, -1, -1, 2]

/-- The splitting `{F, F, C, F}` of scenario S6. -/
def splitFFCF : List ℕ := [0, 0, 1, 0]

/-- The 5-node 1D Laplacian `tridiag(-1, 2, -1)` as a list of rows, the
matrix of scenarios S1/S2. -/
def lap5 : List (List (ℕ × ℚ)) :=
  [[(0, 2), (1, -1)],
   [(0, -1), (1, 2), (2, -1)],
   [(1, -1), (2, 2), (3, -1)],
   [(2, -1), (3, 2), (4, -1)],
   [(3, -1), (4, 2)]]

/-- The splitting `{C, F, C, F, C}` of scenario S2. -/
def splitCFCFC : List ℕ := [1, 0, 1, 0, 1]

/-- A 2 × 2 matrix with positive off-diagonals, `[[4, 1], [1, 4]]`. -/
def posOffdiagA : List (List (ℕ × ℚ)) :=
  [[(0, 4), (1, 1)], [(0, 1), (1, 4)]]

/-- The 3-node strength graph on which `rs_cf_splitting` fails: node 1
influences every node (its `T`-row is full) and depends only on itself.
`S` rows: `{0, 1}`, `{1}`, `{1, 2}`; `T` is its exact transpose. -/
def rsBugGraph : SocGraph :=
  ⟨3, [0, 2, 3, 5], [0, 1, 1, 1, 2], [0, 1, 4, 5], [0, 0, 1, 2, 2]⟩

/-- A 2-node graph with one symmetric strong connection between nodes 0
and 1; `T = Sᵀ = S`. -/
def edgeGraph : SocGraph := ⟨2, [0, 1, 2], [1, 0], [0, 1, 2], [1, 0]⟩

/-- The diagonal-only 2-node strength graph of scenario S3 (`S = diag`). -/
def diagGraph : SocGraph := ⟨2, [0, 1, 2], [0, 1], [0, 1, 2], [0, 1]⟩

/-- Node `j` appears in the `S`-row of node `i` as scanned by the code. -/
def inSRow (g : SocGraph) (i j : ℕ) : Prop :=
  ∃ jj ∈ SRange g i, g.Sj.getD jj 0 = j

/-- Node `j` appears in the `T`-row of node `i` as scanned by the code. -/
def inTRow (g : SocGraph) (i j : ℕ) : Prop :=
  ∃ jj ∈ TRange g i, g.Tj.getD jj 0 = j

/-- `T` is the transpose of `S` on the nodes `< n`: an edge `(i, j)` is
stored in `S` iff `(j, i)` is stored in `T`. -/
def TransposeOf (g : SocGraph) : Prop :=
  ∀ i, i < g.n → ∀ j, j < g.n → (inSRow g i j ↔ inTRow g j i)

instance decInSRow (g : SocGraph) (i j : ℕ) : Decidable (inSRow g i j) := by
  unfold inSRow
  infer_instance

instance decInTRow (g : SocGraph) (i j : ℕ) : Decidable (inTRow g i j) := by
  unfold inTRow
  infer_instance

instance decTransposeOf (g : SocGraph) : Decidable (TransposeOf g) := by
  unfold TransposeOf
  infer_instance

/-- The count of unassigned nodes recorded in a CLJP state. -/
def ucount (st : CljpState) : ℕ :=
  st.splitting.countP (fun v => v == U_NODE)

/-- The invariant carried through the CLJP loop: the splitting array keeps
length `n` and the `unassigned` counter equals the number of U-tags. -/
def CljpInv (g : SocGraph) (st : CljpState) : Prop :=
  st.splitting.length = g.n ∧ st.unassigned = (ucount st : ℤ)

/-! ## Helper lemmas -/

theorem getD_set_ne {α : Type} (l : List α) (k m : ℕ) (v d : α)
    (h : k ≠ m) : (l.set k v).getD m d = l.getD m d := by
  simp [List.getD_eq_getD_get?, List.get?_eq_getElem?, List.getElem?_set_ne h]

theorem getD_set_self {α : Type} (l : List α) (k : ℕ) (v d : α)
    (hk : k < l.length) : (l.set k v).getD k d = v := by
  simp [List.getD_eq_getD_get?, List.get?_eq_getElem?,
    List.getElem?_set_eq_of_lt v hk]

theorem lt_length_of_getD_ne {α : Type} (l : List α) (k : ℕ) (d : α)
    (h : l.getD k d ≠ d) : k < l.length := by
  by_contra hc
  exact h (List.getD_eq_default l d (Nat.le_of_not_lt hc))

theorem countP_set_drop {α : Type} (p : α → Bool) (v : α) (hv : p v = false) :
    ∀ (l : List α) (k : ℕ), k < l.length → p (l.getD k v) = true →
      (l.set k v).countP p + 1 = l.countP p := by
  intro l
  induction l with
  | nil => intro k hk; simp at hk
  | cons a t ih =>
    intro k hk hp
    cases k with
    | zero =>
      simp only [List.getD_cons_zero] at hp
      simp [List.countP_cons, hp, hv]
    | succ k =>
      simp only [List.getD_cons_succ] at hp
      have hk' : k < t.length := by simpa using hk
      have := ih k hk' hp
      simp only [List.set_cons_succ, List.countP_cons]
      omega

/-! ## Claim theorems (part 1) -/

/-- Claim C3: on the 5-point 1D Laplacian with `S = A` and splitting
`{C, F, C, F, C}`, pass 1 of direct interpolation yields the row pointer
`[0, 1, 3, 4, 6, 7]` and pass 2 yields row 1 = `{0.5 at coarse 0, 0.5 at
coarse 1}`, row 3 = `{0.5 at coarse 1, 0.5 at coarse 2}`, and a single
entry of value 1 in each C-row. -/
theorem rs_direct_interpolation_lap5 :
    rs_direct_interpolation_pass1 lap5 splitCFCFC = [0, 1, 3, 4, 6, 7] ∧
    rs_direct_interpolation_pass2 lap5 lap5 splitCFCFC =
      [[(0, 1)], [(0, 1/2), (1, 1/2)], [(1, 1)],
       [(1, 1/2), (2, 1/2)], [(2, 1)]] := by
  refine ⟨by rfl, ?_⟩
  norm_num [rs_direct_interpolation_pass2, pass2Rows, pass2Row, coarseMap,
    lap5, splitCFCFC, C_NODE]
  decide

/-- Claim C4 (failing run): on the well-formed strength graph `rsBugGraph`
— node 1 influences all three nodes and depends only on itself —
`rs_cf_splitting` returns `[F, U, F]`: entry 1 is still `U_NODE = 2`. -/
theorem rs_cf_splitting_leaves_U :
    rs_cf_splitting rsBugGraph = [F_NODE, U_NODE, F_NODE] := by rfl

/-- Claim C8: `cljp_naive_splitting` reseeds the pseudo-random generator
with the fixed constant 2448422 on entry, so its result does not depend on
the incoming generator state: two invocations on the same `S`, `T` and
`colorflag` produce the same splitting. -/
theorem cljp_naive_splitting_deterministic (g : SocGraph) (colorflag : ℕ)
    (r1 r2 : RandState) :
    cljp_naive_splitting g colorflag r1 = cljp_naive_splitting g colorflag r2 := by
  rfl

/-- Claim C10: in `maximum_row_value`, a row with no stored entries
(`Ap[i] = Ap[i+1]`) produces `x[i] = std::numeric_limits<F>::min()`
(the abstracted strictly positive constant `fmin`), hence a positive value
— not 0 and not `-∞`. -/
theorem maximum_row_value_empty_row (fmin : ℚ) (n : ℕ) (Ap Aj : List ℕ)
    (Ax : List ℚ) (i : ℕ) (hi : i < n)
    (hrow : Ap.getD (i + 1) 0 = Ap.getD i 0) :
    (maximum_row_value fmin n Ap Aj Ax).getD i 0 = fmin ∧
    (0 < fmin → 0 < (maximum_row_value fmin n Ap Aj Ax).getD i 0) := by
  have hmap : (maximum_row_value fmin n Ap Aj Ax).getD i 0 =
      (List.range' (Ap.getD i 0) (Ap.getD (i + 1) 0 - Ap.getD i 0)).foldl
        (fun acc jj => max acc (mynorm (Ax.getD jj 0))) fmin := by
    unfold maximum_row_value
    rw [List.getD_eq_getElem _ _ (by simpa using hi)]
    simp [hi]
  rw [hmap, hrow, Nat.sub_self, List.range'_zero, List.foldl_nil]
  exact ⟨rfl, fun h => h⟩

/-- Witness for the claim C10 theorem at a concrete input. -/
theorem maximum_row_value_empty_row_witness :
    (maximum_row_value (1/1000) 1 [0, 0] [] [] ).getD 0 0 = 1/1000 :=
  (maximum_row_value_empty_row (1/1000) 1 [0, 0] [] [] 0 (by decide) (by decide)).1

/-! ## Strength-of-connection lemmas -/

theorem socMinRows_getD (theta : ℚ) :
    ∀ (rows : List (List (ℕ × ℚ))) (k i : ℕ), i < rows.length →
      (socMinRows theta k rows).getD i [] =
        socMinRow theta (k + i) (rows.getD i []) := by
  intro rows
  induction rows with
  | nil => intro k i hi; simp at hi
  | cons r rs ih =>
    intro k i hi
    cases i with
    | zero => simp [socMinRows]
    | succ i =>
      have hi' : i < rs.length := by simpa using hi
      have := ih (k + 1) i hi'
      simp only [socMinRows, List.getD_cons_succ, this]
      ring_nf

theorem socAbsRows_getD (fmin theta : ℚ) :
    ∀ (rows : List (List (ℕ × ℚ))) (k i : ℕ), i < rows.length →
      (socAbsRows fmin theta k rows).getD i [] =
        socAbsRow fmin theta (k + i) (rows.getD i []) := by
  intro rows
  induction rows with
  | nil => intro k i hi; simp at hi
  | cons r rs ih =>
    intro k i hi
    cases i with
    | zero => simp [socAbsRows]
    | succ i =>
      have hi' : i < rs.length := by simpa using hi
      have := ih (k + 1) i hi'
      simp only [socAbsRows, List.getD_cons_succ, this]
      ring_nf

theorem socMinRow_mem_offdiag (theta : ℚ) (i c : ℕ) (v : ℚ)
    (row : List (ℕ × ℚ)) (hc : c ≠ i) :
    (c, v) ∈ socMinRow theta i row ↔
      (c, v) ∈ row ∧ -v ≥ theta * maxOffdiagMin i row := by
  unfold socMinRow
  rw [List.mem_flatMap]
  constructor
  · rintro ⟨e, he, hmem⟩
    rw [List.mem_append] at hmem
    rcases hmem with hmem | hmem
    · by_cases hcond : -e.2 ≥ theta * maxOffdiagMin i row ∧ e.1 ≠ i
      · rw [if_pos hcond, List.mem_singleton] at hmem
        subst hmem
        exact ⟨he, hcond.1⟩
      · rw [if_neg hcond] at hmem; simp at hmem
    · by_cases hdiag : e.1 = i
      · rw [if_pos hdiag, List.mem_singleton] at hmem
        subst hmem
        exact absurd hdiag hc
      · rw [if_neg hdiag] at hmem; simp at hmem
  · rintro ⟨hmem, hge⟩
    refine ⟨(c, v), hmem, ?_⟩
    rw [List.mem_append]
    left
    rw [if_pos ⟨hge, hc⟩]
    exact List.mem_singleton.mpr rfl

theorem socMinRow_mem_diag (theta : ℚ) (i : ℕ) (v : ℚ)
    (row : List (ℕ × ℚ)) (hmem : (i, v) ∈ row) :
    (i, v) ∈ socMinRow theta i row := by
  unfold socMinRow
  rw [List.mem_flatMap]
  refine ⟨(i, v), hmem, ?_⟩
  rw [List.mem_append]
  right
  rw [if_pos rfl]
  exact List.mem_singleton.mpr rfl

theorem socAbsRow_mem_diag (fmin theta : ℚ) (i : ℕ) (v : ℚ)
    (row : List (ℕ × ℚ)) (hmem : (i, v) ∈ row) :
    (i, v) ∈ socAbsRow fmin theta i row := by
  unfold socAbsRow
  rw [List.mem_flatMap]
  refine ⟨(i, v), hmem, ?_⟩
  rw [List.mem_append]
  right
  rw [if_pos rfl]
  exact List.mem_singleton.mpr rfl

/-! ## Claim theorems (part 2) -/

/-- Claim C2 counterexample: take `A = [[4, 1], [1, 4]]` and `θ = 1`. In
row 0 the only stored off-diagonal is `(0,1)` with value 1, so
`max over stored off-diagonals of -A[0,k]` is `-1`, and
`-A[0,1] = -1 ≥ θ · (-1)` holds; yet `classical_strength_of_connection_min`
does not include the entry, because its running maximum starts at 0. -/
theorem classical_min_claim_fails :
    (∀ e ∈ posOffdiagA.getD 0 [], e.1 ≠ 0 → -e.2 ≤ -1) ∧
    (-(1 : ℚ) ≥ 1 * -1) ∧
    ((1, (1 : ℚ)) ∈ posOffdiagA.getD 0 []) ∧
    ((1, (1 : ℚ)) ∉
      (classical_strength_of_connection_min 1 posOffdiagA).getD 0 []) := by
  refine ⟨?_, by norm_num, ?_, ?_⟩
  · intro e he hne
    have hor : e = (0, 4) ∨ e = (1, 1) := by
      simpa [posOffdiagA] using he
    rcases hor with rfl | rfl
    · simp at hne
    · norm_num
  · show (1, (1 : ℚ)) ∈ [((0 : ℕ), (4 : ℚ)), (1, 1)]
    exact List.mem_cons.mpr (Or.inr (List.mem_singleton.mpr rfl))
  · norm_num [classical_strength_of_connection_min, socMinRows, socMinRow,
      maxOffdiagMin, posOffdiagA, max_def, Prod.ext_iff]

/-- Claim C2 (amended): for every matrix `A`, row `i` and threshold `θ`, a
stored off-diagonal entry `(i, c)` with value `v` is included in row `i` of
the output of `classical_strength_of_connection_min` iff
`-v ≥ θ · max(0, max over stored off-diagonals of -A[i,k])` — the running
maximum is initialised at 0 (`maxOffdiagMin`), not at the pure maximum over
the stored off-diagonals. -/
theorem classical_min_strong_iff (theta : ℚ) (A : List (List (ℕ × ℚ)))
    (i c : ℕ) (v : ℚ) (hi : i < A.length) (hc : c ≠ i) :
    (c, v) ∈ (classical_strength_of_connection_min theta A).getD i [] ↔
      (c, v) ∈ A.getD i [] ∧
        -v ≥ theta * maxOffdiagMin i (A.getD i []) := by
  unfold classical_strength_of_connection_min
  rw [socMinRows_getD theta A 0 i hi, Nat.zero_add]
  exact socMinRow_mem_offdiag theta i c v (A.getD i []) hc

/-- Witness for the amended C2 theorem: on `A = [[4, 1], [1, 4]]` with
`θ = 1/2`, the entry `(0, 1)` of value 1 is not strong because
`-1 < (1/2) · max(0, -1) = 0`. -/
theorem classical_min_strong_iff_witness :
    ((1, (1 : ℚ)) ∈
        (classical_strength_of_connection_min (1/2) posOffdiagA).getD 0 []) ↔
      ((1, (1 : ℚ)) ∈ posOffdiagA.getD 0 [] ∧
        -(1 : ℚ) ≥ (1/2) * maxOffdiagMin 0 (posOffdiagA.getD 0 [])) :=
  classical_min_strong_iff (1/2) posOffdiagA 0 1 1 (by norm_num [posOffdiagA])
    (by norm_num)

/-- Claim C5: in both `classical_strength_of_connection_abs` and
`classical_strength_of_connection_min`, every stored diagonal entry
`(i, i)` of `A` is copied into row `i` of `S` with its original value,
whatever the threshold. -/
theorem soc_diagonal_retained (fmin theta : ℚ) (A : List (List (ℕ × ℚ)))
    (i : ℕ) (v : ℚ) (hi : i < A.length) (hd : (i, v) ∈ A.getD i []) :
    (i, v) ∈ (classical_strength_of_connection_abs fmin theta A).getD i [] ∧
    (i, v) ∈ (classical_strength_of_connection_min theta A).getD i [] := by
  constructor
  · unfold classical_strength_of_connection_abs
    rw [socAbsRows_getD fmin theta A 0 i hi, Nat.zero_add]
    exact socAbsRow_mem_diag fmin theta i v (A.getD i []) hd
  · unfold classical_strength_of_connection_min
    rw [socMinRows_getD theta A 0 i hi, Nat.zero_add]
    exact socMinRow_mem_diag theta i v (A.getD i []) hd

/-- Witness for the claim C5 theorem: the weak diagonal of
`A = [[4, 1], [1, 4]]` survives in both strength matrices at `θ = 1`. -/
theorem soc_diagonal_retained_witness :
    (0, (4 : ℚ)) ∈
      (classical_strength_of_connection_abs (1/1000) 1 posOffdiagA).getD 0 [] ∧
    (0, (4 : ℚ)) ∈
      (classical_strength_of_connection_min 1 posOffdiagA).getD 0 [] :=
  soc_diagonal_retained (1/1000) 1 posOffdiagA 0 4 (by norm_num [posOffdiagA])
    (by simp [posOffdiagA])

/-! ## Fold helper lemmas -/

theorem foldl_preserve {α β : Type} (P : α → Prop) (f : α → β → α) :
    ∀ (l : List β), (∀ s b, b ∈ l → P s → P (f s b)) →
      ∀ s, P s → P (l.foldl f s) := by
  intro l
  induction l with
  | nil => intro _ s hs; exact hs
  | cons a t ih =>
    intro h s hs
    exact ih (fun s b hb => h s b (List.mem_cons_of_mem a hb)) (f s a)
      (h s a (List.mem_cons_self a t) hs)

theorem foldl_establish {α β : Type} (P : α → Prop) (f : α → β → α) :
    ∀ (l : List β) (x : β), x ∈ l → (∀ s, P (f s x)) →
      (∀ s b, b ∈ l → P s → P (f s b)) → ∀ s, P (l.foldl f s) := by
  intro l
  induction l with
  | nil => intro x hx; simp at hx
  | cons a t ih =>
    intro x hx hest hpres s
    rcases List.mem_cons.mp hx with rfl | hx'
    · exact foldl_preserve P f t
        (fun s b hb => hpres s b (List.mem_cons_of_mem x hb)) (f s x) (hest s)
    · exact ih x hx' hest
        (fun s b hb => hpres s b (List.mem_cons_of_mem a hb)) (f s a)

theorem getD_set_zero_self (d : List ℚ) (k : ℕ) :
    (d.set k 0).getD k 0 = 0 := by
  by_cases hk : k < d.length
  · exact getD_set_self d k 0 0 hk
  · rw [List.getD_eq_default]
    rw [List.length_set]
    exact Nat.le_of_not_lt hk

theorem cpMono (n : ℕ) (Cp : List ℕ)
    (h : ∀ a, a < n → Cp.getD a 0 ≤ Cp.getD (a + 1) 0) :
    ∀ a b, a ≤ b → b ≤ n → Cp.getD a 0 ≤ Cp.getD b 0 := by
  intro a b hab
  induction hab with
  | refl => intro _; exact le_refl _
  | @step m h' ih =>
    intro hbn
    exact le_trans (ih (le_trans (Nat.le_succ m) hbn))
      (h m (Nat.lt_of_succ_le hbn))

theorem mem_rowRange_iff (Cp : List ℕ) (r jj : ℕ)
    (hle : Cp.getD r 0 ≤ Cp.getD (r + 1) 0) :
    jj ∈ rowRange Cp r ↔ Cp.getD r 0 ≤ jj ∧ jj < Cp.getD (r + 1) 0 := by
  unfold rowRange
  rw [List.mem_range'_1]
  omega

theorem mem_rowRange_bounds (Cp : List ℕ) (r jj : ℕ)
    (hjj : jj ∈ rowRange Cp r) :
    Cp.getD r 0 ≤ jj ∧ jj < Cp.getD r 0 + (Cp.getD (r + 1) 0 - Cp.getD r 0) := by
  unfold rowRange at hjj
  rwa [List.mem_range'_1] at hjj

/-! ## remove_strong_FF_connections lemmas -/

theorem ffDependence_iff (Cp Cj split : List ℕ) (row j : ℕ) :
    ffDependence Cp Cj split row j = true ↔
      ∃ m, split.getD m 0 = C_NODE ∧
        (∃ ii ∈ rowRange Cp row, Cj.getD ii 0 = m) ∧
        (∃ kk ∈ rowRange Cp j, Cj.getD kk 0 = m) := by
  unfold ffDependence
  simp only [List.any_eq_true, Bool.and_eq_true, beq_iff_eq]
  constructor
  · rintro ⟨ii, hii, hC, kk, hkk, hkm⟩
    exact ⟨Cj.getD ii 0, hC, ⟨ii, hii, rfl⟩, ⟨kk, hkk, hkm⟩⟩
  · rintro ⟨m, hC, ⟨ii, hii, him⟩, kk, hkk, hkm⟩
    exact ⟨ii, hii, him ▸ hC, kk, hkk, by rw [hkm, him]⟩

theorem ffEntryStep_zero_pres (Cp Cj split : List ℕ) (row jj : ℕ)
    (d : List ℚ) (jj' : ℕ) (h : d.getD jj 0 = 0) :
    (ffEntryStep Cp Cj split row d jj').getD jj 0 = 0 := by
  unfold ffEntryStep
  by_cases h1 : split.getD (Cj.getD jj' 0) 0 = F_NODE
  · rw [if_pos h1]
    by_cases h2 : ffDependence Cp Cj split row (Cj.getD jj' 0) = true
    · rw [if_pos h2]; exact h
    · rw [if_neg h2]
      by_cases hj : jj' = jj
      · rw [hj]; exact getD_set_zero_self d jj
      · rw [getD_set_ne d jj' jj 0 0 hj]; exact h
  · rw [if_neg h1]; exact h

theorem ffRowStep_zero_pres (Cp Cj split : List ℕ) (jj : ℕ)
    (d : List ℚ) (r : ℕ) (h : d.getD jj 0 = 0) :
    (ffRowStep Cp Cj split d r).getD jj 0 = 0 := by
  unfold ffRowStep
  by_cases hF : split.getD r 0 = F_NODE
  · rw [if_pos hF]
    exact foldl_preserve (fun d => d.getD jj 0 = 0) _ _
      (fun s b _ hs => ffEntryStep_zero_pres Cp Cj split r jj s b hs) d h
  · rw [if_neg hF]; exact h

theorem ffEntryStep_ne_pres (Cp Cj split : List ℕ) (row jj : ℕ)
    (d : List ℚ) (jj' : ℕ) (hne : jj' ≠ jj) :
    (ffEntryStep Cp Cj split row d jj').getD jj 0 = d.getD jj 0 := by
  unfold ffEntryStep
  by_cases h1 : split.getD (Cj.getD jj' 0) 0 = F_NODE
  · rw [if_pos h1]
    by_cases h2 : ffDependence Cp Cj split row (Cj.getD jj' 0) = true
    · rw [if_pos h2]
    · rw [if_neg h2]; exact getD_set_ne d jj' jj 0 0 hne
  · rw [if_neg h1]

/-- Claim C6: `remove_strong_FF_connections` leaves `C_rowptr` and
`C_colinds` unchanged, and sets to 0 exactly those stored entries at a flat
position `jj` of an F-row `row` whose column `j` is also an F-point and for
which no C-point column appears among the stored columns of both row `row`
and row `j` of `C`; every other data entry is unchanged. -/
theorem remove_strong_FF_pointwise (n : ℕ) (Cp Cj : List ℕ) (data : List ℚ)
    (split : List ℕ)
    (hmono : ∀ a, a < n → Cp.getD a 0 ≤ Cp.getD (a + 1) 0)
    (row jj : ℕ) (hrow : row < n)
    (hlo : Cp.getD row 0 ≤ jj) (hhi : jj < Cp.getD (row + 1) 0) :
    (remove_strong_FF_connections n Cp Cj data split).1 = Cp ∧
    (remove_strong_FF_connections n Cp Cj data split).2.1 = Cj ∧
    ((split.getD row 0 = F_NODE ∧
        split.getD (Cj.getD jj 0) 0 = F_NODE ∧
        ¬ ∃ m, split.getD m 0 = C_NODE ∧
            (∃ ii ∈ rowRange Cp row, Cj.getD ii 0 = m) ∧
            (∃ kk ∈ rowRange Cp (Cj.getD jj 0), Cj.getD kk 0 = m)) →
      (remove_strong_FF_connections n Cp Cj data split).2.2.getD jj 0 = 0) ∧
    (¬ (split.getD row 0 = F_NODE ∧
        split.getD (Cj.getD jj 0) 0 = F_NODE ∧
        ¬ ∃ m, split.getD m 0 = C_NODE ∧
            (∃ ii ∈ rowRange Cp row, Cj.getD ii 0 = m) ∧
            (∃ kk ∈ rowRange Cp (Cj.getD jj 0), Cj.getD kk 0 = m)) →
      (remove_strong_FF_connections n Cp Cj data split).2.2.getD jj 0 =
        data.getD jj 0) := by
  refine ⟨rfl, rfl, ?_, ?_⟩
  all_goals
    have hjjmem : jj ∈ rowRange Cp row :=
      (mem_rowRange_iff Cp row jj (hmono row hrow)).mpr ⟨hlo, hhi⟩
  · rintro ⟨hF, hjF, hno⟩
    have hdep : ¬ ffDependence Cp Cj split row (Cj.getD jj 0) = true := by
      rw [ffDependence_iff]; exact hno
    show ((List.range n).foldl (ffRowStep Cp Cj split) data).getD jj 0 = 0
    refine foldl_establish (fun d => d.getD jj 0 = 0) _ _ row
      (List.mem_range.mpr hrow) ?_
      (fun s b _ hs => ffRowStep_zero_pres Cp Cj split jj s b hs) data
    intro s
    unfold ffRowStep
    rw [if_pos hF]
    refine foldl_establish (fun d => d.getD jj 0 = 0) _ _ jj hjjmem ?_
      (fun d b _ hd => ffEntryStep_zero_pres Cp Cj split row jj d b hd) s
    intro d
    unfold ffEntryStep
    rw [if_pos hjF, if_neg hdep]
    exact getD_set_zero_self d jj
  · intro hcond
    show ((List.range n).foldl (ffRowStep Cp Cj split) data).getD jj 0 =
      data.getD jj 0
    refine foldl_preserve (fun d => d.getD jj 0 = data.getD jj 0) _ _
      ?_ data rfl
    intro s r hr hs
    unfold ffRowStep
    by_cases hrF : split.getD r 0 = F_NODE
    · rw [if_pos hrF]
      refine foldl_preserve (fun d => d.getD jj 0 = data.getD jj 0) _ _
        ?_ s hs
      intro d jj' hjj' hd
      by_cases hne : jj' = jj
      · subst hne
        by_cases hsame : r = row
        · subst hsame
          unfold ffEntryStep
          by_cases h1 : split.getD (Cj.getD jj' 0) 0 = F_NODE
          · rw [if_pos h1]
            have hdep : ffDependence Cp Cj split r (Cj.getD jj' 0) = true := by
              by_contra hnd
              exact hcond ⟨hrF, h1, fun hex =>
                hnd ((ffDependence_iff Cp Cj split r (Cj.getD jj' 0)).mpr hex)⟩
            rw [if_pos hdep]; exact hd
          · rw [if_neg h1]; exact hd
        · exfalso
          have hrn : r < n := List.mem_range.mp hr
          have hb := mem_rowRange_bounds Cp r jj' hjj'
          rcases Nat.lt_or_ge r row with hlt | hge
          · have h1 : Cp.getD (r + 1) 0 ≤ Cp.getD row 0 :=
              cpMono n Cp hmono (r + 1) row hlt (Nat.le_of_lt hrow)
            omega
          · have hgt : row + 1 ≤ r := by omega
            have h1 : Cp.getD (row + 1) 0 ≤ Cp.getD r 0 :=
              cpMono n Cp hmono (row + 1) r hgt (Nat.le_of_lt hrn)
            omega
      · rw [ffEntryStep_ne_pres Cp Cj split r jj d jj' hne]
        exact hd
    · rw [if_neg hrF]; exact hs

/-- Witness for the claim C6 theorem: the 4-node path graph of scenario S6
with splitting `{F, F, C, F}`; the strong F–F entry `(0, 1)` (flat position
1) shares no C-point with row 1 and is zeroed. -/
theorem remove_strong_FF_pointwise_witness :
    (remove_strong_FF_connections 4 pathCp pathCj pathCx splitFFCF).2.2.getD 1 0
      = 0 := by
  refine (remove_strong_FF_pointwise 4 pathCp pathCj pathCx splitFFCF
    (by decide) 0 1 (by decide) (by decide) (by decide)).2.2.1
    ⟨by decide, by decide, ?_⟩
  rintro ⟨m, hC, ⟨ii, hii, him⟩, -⟩
  have hii2 : ii = 0 ∨ ii = 1 := by
    have : ii ∈ [0, 1] := by
      simpa [rowRange, pathCp, List.range'] using hii
    simpa using this
  rcases hii2 with rfl | rfl
  · rw [← him] at hC; simp [pathCj, splitFFCF, C_NODE] at hC
  · rw [← him] at hC; simp [pathCj, splitFFCF, C_NODE] at hC

/-! ## rs_cf_splitting invariant lemmas -/

theorem getD_set_val_self {α : Type} (l : List α) (k : ℕ) (v : α) :
    (l.set k v).getD k v = v := by
  by_cases hk : k < l.length
  · exact getD_set_self l k v v hk
  · rw [List.getD_eq_default]
    rw [List.length_set]
    exact Nat.le_of_not_lt hk

theorem getD_set_F_pres (l : List ℕ) (k i : ℕ) (h : l.getD i 0 = F_NODE) :
    (l.set k F_NODE).getD i 0 = F_NODE := by
  by_cases hk : k = i
  · subst hk; exact getD_set_val_self l k F_NODE
  · rw [getD_set_ne l k i F_NODE 0 hk]; exact h

theorem rsIncStep_splitting_eq (g : SocGraph) (st : RsState) (kk : ℕ) :
    (rsIncStep g st kk).splitting = st.splitting := by
  simp only [rsIncStep]
  by_cases h1 : st.splitting.getD (g.Sj.getD kk 0) 0 = U_NODE
  · rw [if_pos h1]
    by_cases h2 : st.lam.getD (g.Sj.getD kk 0) 0 ≥ (g.n : ℤ) - 1
    · rw [if_pos h2]
    · rw [if_neg h2]
  · rw [if_neg h1]

theorem rsDecStep_splitting_eq (g : SocGraph) (st : RsState) (jj : ℕ) :
    (rsDecStep g st jj).splitting = st.splitting := by
  simp only [rsDecStep]
  by_cases h1 : st.splitting.getD (g.Sj.getD jj 0) 0 = U_NODE
  · rw [if_pos h1]
    by_cases h2 : st.lam.getD (g.Sj.getD jj 0) 0 = 0
    · rw [if_pos h2]
    · rw [if_neg h2]
  · rw [if_neg h1]

theorem rsIncFold_F_pres (g : SocGraph) (i : ℕ) (l : List ℕ) (s : RsState)
    (hs : s.splitting.getD i 0 = F_NODE) :
    (l.foldl (rsIncStep g) s).splitting.getD i 0 = F_NODE :=
  foldl_preserve (fun (s : RsState) => s.splitting.getD i 0 = F_NODE)
    (rsIncStep g) l
    (fun s b _ hs => by
      show (rsIncStep g s b).splitting.getD i 0 = F_NODE
      rw [rsIncStep_splitting_eq g s b]; exact hs) s hs

theorem rsTStep_F_pres (g : SocGraph) (i : ℕ) (st : RsState) (jj : ℕ)
    (h : st.splitting.getD i 0 = F_NODE) :
    (rsTStep g st jj).splitting.getD i 0 = F_NODE := by
  unfold rsTStep
  by_cases h1 : st.splitting.getD (g.Tj.getD jj 0) 0 = U_NODE
  · rw [if_pos h1]
    exact rsIncFold_F_pres g i _ _
      (getD_set_F_pres st.splitting (g.Tj.getD jj 0) i h)
  · rw [if_neg h1]; exact h

theorem rsTFold_F_pres (g : SocGraph) (i : ℕ) (l : List ℕ) (s : RsState)
    (hs : s.splitting.getD i 0 = F_NODE) :
    (l.foldl (rsTStep g) s).splitting.getD i 0 = F_NODE :=
  foldl_preserve (fun (s : RsState) => s.splitting.getD i 0 = F_NODE)
    (rsTStep g) l (fun s b _ hs => rsTStep_F_pres g i s b hs) s hs

theorem rsDecFold_F_pres (g : SocGraph) (i : ℕ) (l : List ℕ) (s : RsState)
    (hs : s.splitting.getD i 0 = F_NODE) :
    (l.foldl (rsDecStep g) s).splitting.getD i 0 = F_NODE :=
  foldl_preserve (fun (s : RsState) => s.splitting.getD i 0 = F_NODE)
    (rsDecStep g) l
    (fun s b _ hs => by
      show (rsDecStep g s b).splitting.getD i 0 = F_NODE
      rw [rsDecStep_splitting_eq g s b]; exact hs) s hs

theorem rsMainStep_F_pres (g : SocGraph) (i : ℕ) (st : RsState) (t : ℕ)
    (h : st.splitting.getD i 0 = F_NODE) :
    (rsMainStep g st t).splitting.getD i 0 = F_NODE := by
  simp only [rsMainStep]
  by_cases h1 : st.splitting.getD (st.itn.getD t 0) 0 = F_NODE
  · rw [if_pos h1]; exact h
  · rw [if_neg h1]
    have hne : st.itn.getD t 0 ≠ i := fun heq => h1 (heq ▸ h)
    refine rsDecFold_F_pres g i _ _ (rsTFold_F_pres g i _ _ ?_)
    show (st.splitting.set (st.itn.getD t 0) C_NODE).getD i 0 = F_NODE
    rw [getD_set_ne st.splitting (st.itn.getD t 0) i C_NODE 0 hne]
    exact h

theorem foldl_establish_inv {α β : Type} (P Q : α → Prop) (f : α → β → α) :
    ∀ (l : List β) (x : β), x ∈ l →
      (∀ s b, b ∈ l → Q s → Q (f s b)) →
      (∀ s, Q s → P (f s x)) →
      (∀ s b, b ∈ l → P s → P (f s b)) →
      ∀ s, Q s → P (l.foldl f s) := by
  intro l
  induction l with
  | nil => intro x hx; simp at hx
  | cons a t ih =>
    intro x hx hq hest hpres s hs
    rcases List.mem_cons.mp hx with rfl | hx'
    · exact foldl_preserve P f t
        (fun s b hb => hpres s b (List.mem_cons_of_mem x hb)) (f s x)
        (hest s hs)
    · exact ih x hx' (fun s b hb => hq s b (List.mem_cons_of_mem a hb)) hest
        (fun s b hb => hpres s b (List.mem_cons_of_mem a hb)) (f s a)
        (hq s a (List.mem_cons_self a t) hs)

theorem rsLamInit_getD (g : SocGraph) (i : ℕ) (hi : i < g.n) :
    (rsLamInit g).getD i 0 =
      (g.Tp.getD (i + 1) 0 : ℤ) - (g.Tp.getD i 0 : ℤ) := by
  unfold rsLamInit
  rw [List.getD_eq_getElem _ _ (by simpa using hi)]
  simp [hi]

theorem rsPreStep_lam_eq (g : SocGraph) (s : RsState) (b : ℕ) :
    (rsPreStep g s b).lam = s.lam := by
  unfold rsPreStep
  split
  · rfl
  · rfl

theorem rsPreStep_F_pres (g : SocGraph) (i : ℕ) (s : RsState) (b : ℕ)
    (hs : s.splitting.getD i 0 = F_NODE) :
    (rsPreStep g s b).splitting.getD i 0 = F_NODE := by
  unfold rsPreStep
  split
  · exact getD_set_F_pres s.splitting b i hs
  · exact hs

/-- Claim C9: after `rs_cf_splitting`, every node `i` whose `T`-row is
empty (`Tp[i+1] = Tp[i]`) or contains only `i` itself is assigned F;
moreover a node tagged F is never changed by an iteration of the main
loop. -/
theorem rs_isolated_node_F (g : SocGraph) (i : ℕ) (hi : i < g.n)
    (hrow : g.Tp.getD (i + 1) 0 = g.Tp.getD i 0 ∨
      (g.Tp.getD (i + 1) 0 = g.Tp.getD i 0 + 1 ∧
        g.Tj.getD (g.Tp.getD i 0) 0 = i)) :
    (rs_cf_splitting g).getD i 0 = F_NODE ∧
    (∀ (m : ℕ) (st : RsState) (t : ℕ),
      st.splitting.getD m 0 = F_NODE →
      (rsMainStep g st t).splitting.getD m 0 = F_NODE) := by
  refine ⟨?_, fun m st t hm => rsMainStep_F_pres g m st t hm⟩
  unfold rs_cf_splitting
  refine foldl_preserve (fun (s : RsState) => s.splitting.getD i 0 = F_NODE)
    (rsMainStep g) ((List.range g.n).reverse)
    (fun s b _ hs => rsMainStep_F_pres g i s b hs) _ ?_
  unfold rsPrePass
  refine foldl_establish_inv
    (fun (s : RsState) => s.splitting.getD i 0 = F_NODE)
    (fun (s : RsState) => s.lam = rsLamInit g)
    (rsPreStep g) (List.range g.n) i (List.mem_range.mpr hi)
    (fun s b _ hq => by rw [← hq] at *; exact (rsPreStep_lam_eq g s b) ▸ rfl)
    ?_ (fun s b _ hs => rsPreStep_F_pres g i s b hs) _ rfl
  intro s hq
  have hcond : s.lam.getD i 0 = 0 ∨
      (s.lam.getD i 0 = 1 ∧ g.Tj.getD (g.Tp.getD i 0) 0 = i) := by
    rw [hq, rsLamInit_getD g i hi]
    rcases hrow with h | ⟨h1, h2⟩
    · left; rw [h]; ring
    · right
      refine ⟨?_, h2⟩
      rw [h1]
      push_cast
      ring
  unfold rsPreStep
  rw [if_pos hcond]
  show (s.splitting.set i F_NODE).getD i 0 = F_NODE
  exact getD_set_val_self s.splitting i F_NODE

/-- Witness for the claim C9 theorem: on the diagonal-only strength graph
of scenario S3 node 0 has the self-only `T`-row `[0]` and ends F. -/
theorem rs_isolated_node_F_witness :
    (rs_cf_splitting diagGraph).getD 0 0 = F_NODE :=
  (rs_isolated_node_F diagGraph 0 (by decide)
    (Or.inr ⟨by decide, by decide⟩)).1

/-! ## CLJP invariant lemmas -/

theorem getD_default_irrel {α : Type} (l : List α) (k : ℕ) (d1 d2 : α)
    (hk : k < l.length) : l.getD k d1 = l.getD k d2 := by
  rw [List.getD_eq_getElem l d1 hk, List.getD_eq_getElem l d2 hk]

theorem countP_replicate {α : Type} (p : α → Bool) (n : ℕ) (a : α) :
    (List.replicate n a).countP p = if p a then n else 0 := by
  induction n with
  | zero => simp
  | succ n ih =>
    rw [List.replicate_succ, List.countP_cons, ih]
    split
    · omega
    · omega

theorem ucount_set_F (sp : List ℕ) (k : ℕ) (hk : sp.getD k 0 = U_NODE) :
    (sp.set k F_NODE).countP (fun v => v == U_NODE) + 1 =
      sp.countP (fun v => v == U_NODE) := by
  have hklt : k < sp.length :=
    lt_length_of_getD_ne sp k 0 (by rw [hk]; decide)
  refine countP_set_drop (fun v => v == U_NODE) F_NODE (by decide) sp k hklt ?_
  rw [getD_default_irrel sp k F_NODE 0 hklt, hk]
  decide

theorem ucount_set_C (sp : List ℕ) (k : ℕ) (hk : sp.getD k 0 = U_NODE) :
    (sp.set k C_NODE).countP (fun v => v == U_NODE) + 1 =
      sp.countP (fun v => v == U_NODE) := by
  have hklt : k < sp.length :=
    lt_length_of_getD_ne sp k 0 (by rw [hk]; decide)
  refine countP_set_drop (fun v => v == U_NODE) C_NODE (by decide) sp k hklt ?_
  rw [getD_default_irrel sp k C_NODE 0 hklt, hk]
  decide

theorem p5edge_inv (g : SocGraph) (st : CljpState) (jj : ℕ)
    (h : CljpInv g st) :
    CljpInv g (p5edge g st jj) ∧ ucount (p5edge g st jj) ≤ ucount st := by
  obtain ⟨hlen, hcnt⟩ := h
  unfold p5edge
  by_cases hb : (st.splitting.getD (g.Sj.getD jj 0) 0 == U_NODE &&
      st.edgemark.getD jj 0 != 0) = true
  · rw [if_pos hb]
    have hb' := hb
    simp only [Bool.and_eq_true, beq_iff_eq] at hb'
    have hU : st.splitting.getD (g.Sj.getD jj 0) 0 = U_NODE := hb'.1
    by_cases hw : st.weight.getD (g.Sj.getD jj 0) 0 - 1 < 1
    · rw [if_pos hw]
      have hdrop := ucount_set_F st.splitting (g.Sj.getD jj 0) hU
      refine ⟨⟨?_, ?_⟩, ?_⟩
      · show (st.splitting.set (g.Sj.getD jj 0) F_NODE).length = g.n
        rw [List.length_set]; exact hlen
      · show st.unassigned - 1 =
          ((st.splitting.set (g.Sj.getD jj 0) F_NODE).countP
            (fun v => v == U_NODE) : ℤ)
        unfold ucount at hcnt
        omega
      · show (st.splitting.set (g.Sj.getD jj 0) F_NODE).countP
            (fun v => v == U_NODE) ≤ ucount st
        unfold ucount
        omega
    · rw [if_neg hw]
      exact ⟨⟨hlen, hcnt⟩, le_refl _⟩
  · rw [if_neg hb]
    exact ⟨⟨hlen, hcnt⟩, le_refl _⟩

theorem p6cacheStep_inv (g : SocGraph) (c : ℕ) (st : CljpState) (jj : ℕ)
    (h : CljpInv g st) :
    CljpInv g (p6cacheStep g c st jj) ∧
      ucount (p6cacheStep g c st jj) ≤ ucount st := by
  unfold p6cacheStep
  by_cases hb : (st.splitting.getD (g.Tj.getD jj 0) 0 == U_NODE) = true
  · rw [if_pos hb]; exact ⟨h, le_refl _⟩
  · rw [if_neg hb]; exact ⟨h, le_refl _⟩

theorem p6kstep_inv (g : SocGraph) (c : ℕ) (st : CljpState) (kk : ℕ)
    (h : CljpInv g st) :
    CljpInv g (p6kstep g c st kk) ∧ ucount (p6kstep g c st kk) ≤ ucount st := by
  obtain ⟨hlen, hcnt⟩ := h
  unfold p6kstep
  by_cases hb : (st.splitting.getD (g.Sj.getD kk 0) 0 == U_NODE &&
      st.edgemark.getD kk 0 != 0) = true
  · rw [if_pos hb]
    have hb' := hb
    simp only [Bool.and_eq_true, beq_iff_eq] at hb'
    have hU : st.splitting.getD (g.Sj.getD kk 0) 0 = U_NODE := hb'.1
    by_cases hc : (st.cache.getD (g.Sj.getD kk 0) (-1) == (c : ℤ)) = true
    · rw [if_pos hc]
      by_cases hw : st.weight.getD (g.Sj.getD kk 0) 0 - 1 < 1
      · rw [if_pos hw]
        have hdrop := ucount_set_F st.splitting (g.Sj.getD kk 0) hU
        refine ⟨⟨?_, ?_⟩, ?_⟩
        · show (st.splitting.set (g.Sj.getD kk 0) F_NODE).length = g.n
          rw [List.length_set]; exact hlen
        · show st.unassigned - 1 =
            ((st.splitting.set (g.Sj.getD kk 0) F_NODE).countP
              (fun v => v == U_NODE) : ℤ)
          unfold ucount at hcnt
          omega
        · show (st.splitting.set (g.Sj.getD kk 0) F_NODE).countP
              (fun v => v == U_NODE) ≤ ucount st
          unfold ucount
          omega
      · rw [if_neg hw]
        exact ⟨⟨hlen, hcnt⟩, le_refl _⟩
    · rw [if_neg hc]
      exact ⟨⟨hlen, hcnt⟩, le_refl _⟩
  · rw [if_neg hb]
    exact ⟨⟨hlen, hcnt⟩, le_refl _⟩

theorem foldl_inv_mono {β : Type} (g : SocGraph) (f : CljpState → β → CljpState)
    (hstep : ∀ s b, CljpInv g s →
      CljpInv g (f s b) ∧ ucount (f s b) ≤ ucount s) :
    ∀ (l : List β) (s : CljpState), CljpInv g s →
      CljpInv g (l.foldl f s) ∧ ucount (l.foldl f s) ≤ ucount s := by
  intro l
  induction l with
  | nil => intro s hs; exact ⟨hs, le_refl _⟩
  | cons a t ih =>
    intro s hs
    obtain ⟨h1, h2⟩ := hstep s a hs
    obtain ⟨h3, h4⟩ := ih (f s a) h1
    exact ⟨h3, le_trans h4 h2⟩

theorem p6step_inv (g : SocGraph) (st : CljpState) (c : ℕ)
    (h : CljpInv g st) :
    CljpInv g (p6step g st c) ∧ ucount (p6step g st c) ≤ ucount st := by
  unfold p6step
  obtain ⟨h1, h2⟩ := foldl_inv_mono g (p6cacheStep g c)
    (fun s b hs => p6cacheStep_inv g c s b hs) (TRange g c) st h
  obtain ⟨h3, h4⟩ := foldl_inv_mono g
    (fun s jj => (SRange g (g.Tj.getD jj 0)).foldl (p6kstep g c) s)
    (fun s b hs => foldl_inv_mono g (p6kstep g c)
      (fun s' b' hs' => p6kstep_inv g c s' b' hs') _ s hs)
    (TRange g c) _ h1
  exact ⟨h3, le_trans h4 h2⟩

theorem markC_count :
    ∀ (ds : List ℕ) (sp : List ℕ), ds.Nodup →
      (∀ c ∈ ds, sp.getD c 0 = U_NODE) →
      (ds.foldl (fun l c => l.set c C_NODE) sp).length = sp.length ∧
      (ds.foldl (fun l c => l.set c C_NODE) sp).countP (fun v => v == U_NODE)
        + ds.length = sp.countP (fun v => v == U_NODE) := by
  intro ds
  induction ds with
  | nil => intro sp _ _; exact ⟨rfl, by simp⟩
  | cons c t ih =>
    intro sp hnd hU
    have hcU : sp.getD c 0 = U_NODE := hU c (List.mem_cons_self c t)
    have hdrop := ucount_set_C sp c hcU
    have hU' : ∀ c' ∈ t, (sp.set c C_NODE).getD c' 0 = U_NODE := by
      intro c' hc'
      have hne : c ≠ c' := fun he => (List.nodup_cons.mp hnd).1 (he ▸ hc')
      rw [getD_set_ne sp c c' C_NODE 0 hne]
      exact hU c' (List.mem_cons_of_mem _ hc')
    obtain ⟨hl, hc2⟩ := ih (sp.set c C_NODE) (List.nodup_cons.mp hnd).2 hU'
    constructor
    · simp only [List.foldl_cons]
      rw [hl, List.length_set]
    · simp only [List.foldl_cons, List.length_cons]
      omega

theorem cljpCands_ne_nil (g : SocGraph) (st : CljpState)
    (hlen : st.splitting.length = g.n) (hU : 0 < ucount st) :
    cljpCands g st ≠ [] := by
  obtain ⟨a, ha, hpa⟩ := List.countP_pos_iff.mp hU
  obtain ⟨k, hk, hka⟩ := List.getElem_of_mem ha
  have hkU : st.splitting.getD k 0 = U_NODE := by
    rw [List.getD_eq_getElem _ _ hk, hka]
    exact beq_iff_eq.mp hpa
  have hkin : k ∈ (List.range g.n).filter
      (fun i => st.splitting.getD i 0 == U_NODE) := by
    refine List.mem_filter.mpr ⟨List.mem_range.mpr (hlen ▸ hk), ?_⟩
    rw [hkU]
    decide
  obtain ⟨u, hu⟩ : ∃ u, ((List.range g.n).filter
      (fun i => st.splitting.getD i 0 == U_NODE)).argmax
        (fun i => st.weight.getD i 0) = some u := by
    rcases hh : ((List.range g.n).filter
      (fun i => st.splitting.getD i 0 == U_NODE)).argmax
        (fun i => st.weight.getD i 0) with _ | u
    · exact absurd (List.argmax_eq_none.mp hh) (List.ne_nil_of_mem hkin)
    · exact ⟨u, rfl⟩
  have hu' : u ∈ ((List.range g.n).filter
      (fun i => st.splitting.getD i 0 == U_NODE)).argmax
        (fun i => st.weight.getD i 0) := hu
  have huin := List.argmax_mem hu'
  have humax : ∀ b ∈ (List.range g.n).filter
      (fun i => st.splitting.getD i 0 == U_NODE),
      st.weight.getD b 0 ≤ st.weight.getD u 0 :=
    fun b hb => List.le_of_mem_argmax hb hu'
  have huU : st.splitting.getD u 0 = U_NODE :=
    beq_iff_eq.mp (List.mem_filter.mp huin).2
  have hun : u < g.n := List.mem_range.mp (List.mem_filter.mp huin).1
  have hblockS : cljpBlockedS g st u = false := by
    rw [Bool.eq_false_iff]
    intro hcon
    rw [cljpBlockedS, List.any_eq_true] at hcon
    obtain ⟨jj, hjj, hbb⟩ := hcon
    simp only [Bool.and_eq_true, beq_iff_eq, decide_eq_true_eq] at hbb
    obtain ⟨hjU, hwlt⟩ := hbb
    have hjlt : g.Sj.getD jj 0 < g.n := by
      rw [← hlen]
      exact lt_length_of_getD_ne _ _ _ (by rw [hjU]; decide)
    have hjin : g.Sj.getD jj 0 ∈ (List.range g.n).filter
        (fun i => st.splitting.getD i 0 == U_NODE) :=
      List.mem_filter.mpr ⟨List.mem_range.mpr hjlt, by rw [hjU]; decide⟩
    exact absurd hwlt (not_lt.mpr (humax _ hjin))
  have hblockT : cljpBlockedT g st u = false := by
    rw [Bool.eq_false_iff]
    intro hcon
    rw [cljpBlockedT, List.any_eq_true] at hcon
    obtain ⟨jj, hjj, hbb⟩ := hcon
    simp only [Bool.and_eq_true, beq_iff_eq, decide_eq_true_eq] at hbb
    obtain ⟨hjU, hwlt⟩ := hbb
    have hjlt : g.Tj.getD jj 0 < g.n := by
      rw [← hlen]
      exact lt_length_of_getD_ne _ _ _ (by rw [hjU]; decide)
    have hjin : g.Tj.getD jj 0 ∈ (List.range g.n).filter
        (fun i => st.splitting.getD i 0 == U_NODE) :=
      List.mem_filter.mpr ⟨List.mem_range.mpr hjlt, by rw [hjU]; decide⟩
    exact absurd hwlt (not_lt.mpr (humax _ hjin))
  have hcand : cljpIsCand g st u = true := by
    rw [cljpIsCand, huU, hblockS, hblockT]
    rfl
  exact List.ne_nil_of_mem
    (List.mem_filter.mpr ⟨List.mem_range.mpr hun, hcand⟩)

theorem cljpPass_eq (g : SocGraph) (st : CljpState) :
    cljpPass g st = (cljpCands g st).foldl (p6step g)
      ((cljpCands g st).foldl (fun s c => (SRange g c).foldl (p5edge g) s)
        { st with
          splitting := (cljpCands g st).foldl
            (fun sp c => sp.set c C_NODE) st.splitting,
          unassigned := st.unassigned - (cljpCands g st).length }) := rfl

theorem cljpPass_dec (g : SocGraph) (st : CljpState) (hInv : CljpInv g st)
    (hU : 0 < ucount st) :
    CljpInv g (cljpPass g st) ∧ ucount (cljpPass g st) < ucount st := by
  obtain ⟨hlen, hcnt⟩ := hInv
  have hnd : (cljpCands g st).Nodup :=
    List.Nodup.filter _ (List.nodup_range g.n)
  have hallU : ∀ c ∈ cljpCands g st, st.splitting.getD c 0 = U_NODE := by
    intro c hc
    have hb := (List.mem_filter.mp hc).2
    rw [cljpIsCand] at hb
    simp only [Bool.and_eq_true, beq_iff_eq] at hb
    exact hb.1.1
  obtain ⟨hmlen, hmcount⟩ := markC_count (cljpCands g st) st.splitting hnd hallU
  have hne : cljpCands g st ≠ [] := cljpCands_ne_nil g st hlen hU
  have hpos : 0 < (cljpCands g st).length := List.length_pos.mpr hne
  rw [cljpPass_eq]
  have hInv1 : CljpInv g { st with
      splitting := (cljpCands g st).foldl
        (fun sp c => sp.set c C_NODE) st.splitting,
      unassigned := st.unassigned - (cljpCands g st).length } := by
    constructor
    · show ((cljpCands g st).foldl
        (fun sp c => sp.set c C_NODE) st.splitting).length = g.n
      rw [hmlen]; exact hlen
    · show st.unassigned - ((cljpCands g st).length : ℤ) =
        (((cljpCands g st).foldl (fun sp c => sp.set c C_NODE)
          st.splitting).countP (fun v => v == U_NODE) : ℤ)
      unfold ucount at hcnt
      omega
  obtain ⟨hI2, hm2⟩ := foldl_inv_mono g
    (fun s c => (SRange g c).foldl (p5edge g) s)
    (fun s b hs => foldl_inv_mono g (p5edge g)
      (fun s' b' hs' => p5edge_inv g s' b' hs') _ s hs)
    (cljpCands g st) _ hInv1
  obtain ⟨hI3, hm3⟩ := foldl_inv_mono g (p6step g)
    (fun s b hs => p6step_inv g s b hs) (cljpCands g st) _ hI2
  refine ⟨hI3, ?_⟩
  have hu1 : ucount { st with
      splitting := (cljpCands g st).foldl
        (fun sp c => sp.set c C_NODE) st.splitting,
      unassigned := st.unassigned - (cljpCands g st).length }
      + (cljpCands g st).length = ucount st := by
    unfold ucount
    exact hmcount
  omega

theorem cljpLoop_isSome (g : SocGraph) :
    ∀ (fuel : ℕ) (st : CljpState), CljpInv g st → ucount st ≤ fuel →
      (cljpLoop g fuel st).isSome = true := by
  intro fuel
  induction fuel with
  | zero =>
    intro st hInv hle
    unfold cljpLoop
    rw [if_neg (by have := hInv.2; omega : ¬ st.unassigned > 0)]
    rfl
  | succ f ih =>
    intro st hInv hle
    unfold cljpLoop
    by_cases hpos : st.unassigned > 0
    · rw [if_pos hpos]
      have hUpos : 0 < ucount st := by have := hInv.2; omega
      obtain ⟨hI, hlt⟩ := cljpPass_dec g st hInv hUpos
      exact ih (cljpPass g st) hI (by omega)
    · rw [if_neg hpos]
      rfl

theorem cljpInit_inv (g : SocGraph) (base : List ℚ) :
    CljpInv g (cljpInit g base) ∧ ucount (cljpInit g base) = g.n := by
  have hu : ucount (cljpInit g base) = g.n := by
    show (List.replicate g.n U_NODE).countP (fun v => v == U_NODE) = g.n
    rw [countP_replicate]
    simp
  refine ⟨⟨?_, ?_⟩, hu⟩
  · show (List.replicate g.n U_NODE).length = g.n
    simp
  · show (g.n : ℤ) = (ucount (cljpInit g base) : ℤ)
    rw [hu]

theorem cljp_run_isSome (g : SocGraph) (base : List ℚ) :
    ((cljpLoop g g.n (cljpInit g base)).map cljpFinal).isSome = true := by
  obtain ⟨hInv, hu⟩ := cljpInit_inv g base
  have hs := cljpLoop_isSome g g.n (cljpInit g base) hInv (le_of_eq hu)
  obtain ⟨s, hss⟩ := Option.isSome_iff_exists.mp hs
  rw [hss]
  rfl

/-- Claim C7: `cljp_naive_splitting` terminates: the selection loop, run
with fuel `n`, always completes (the result is `some _`), because every
round entered with unassigned nodes selects at least one of them — in
particular a U-node of maximal weight — so the number of U-nodes strictly
decreases each round. -/
theorem cljp_naive_splitting_terminates :
    (∀ (g : SocGraph) (colorflag : ℕ) (rng : RandState),
      (cljp_naive_splitting g colorflag rng).isSome = true) ∧
    (∀ (g : SocGraph) (st : CljpState), st.splitting.length = g.n →
      0 < ucount st → cljpCands g st ≠ []) := by
  constructor
  · intro g colorflag rng
    unfold cljp_naive_splitting
    exact cljp_run_isSome g _
  · intro g st hlen hU
    exact cljpCands_ne_nil g st hlen hU

/-- Witness for the claim C7 theorem: the two-node strength graph with one
symmetric edge terminates, and its all-U initial state with base weights
`[1/2, 1/2]` selects a nonempty independent set. -/
theorem cljp_naive_splitting_terminates_witness :
    (cljp_naive_splitting edgeGraph 0 (7, 3)).isSome = true ∧
    cljpCands edgeGraph (cljpInit edgeGraph [1/2, 1/2]) ≠ [] :=
  ⟨cljp_naive_splitting_terminates.1 edgeGraph 0 (7, 3),
   cljp_naive_splitting_terminates.2 edgeGraph
     (cljpInit edgeGraph [1/2, 1/2]) (by decide)
     (by show 0 < (List.replicate 2 U_NODE).countP (fun v => v == U_NODE)
         decide)⟩

/-! ## CLJP selection-round lemmas -/

theorem cljpBlockedS_false_iff (g : SocGraph) (st : CljpState) (i : ℕ) :
    cljpBlockedS g st i = false ↔
      ∀ jj ∈ SRange g i,
        st.splitting.getD (g.Sj.getD jj 0) 0 = U_NODE →
        st.weight.getD (g.Sj.getD jj 0) 0 ≤ st.weight.getD i 0 := by
  constructor
  · intro hfalse jj hjj hU
    by_contra hgt
    rw [not_le] at hgt
    have htrue : cljpBlockedS g st i = true := by
      rw [cljpBlockedS, List.any_eq_true]
      refine ⟨jj, hjj, ?_⟩
      simp only [Bool.and_eq_true, beq_iff_eq, decide_eq_true_eq]
      exact ⟨hU, hgt⟩
    rw [hfalse] at htrue
    cases htrue
  · intro h
    rw [Bool.eq_false_iff]
    intro htrue
    rw [cljpBlockedS, List.any_eq_true] at htrue
    obtain ⟨jj, hjj, hbb⟩ := htrue
    simp only [Bool.and_eq_true, beq_iff_eq, decide_eq_true_eq] at hbb
    exact absurd hbb.2 (not_lt.mpr (h jj hjj hbb.1))

theorem cljpBlockedT_false_iff (g : SocGraph) (st : CljpState) (i : ℕ) :
    cljpBlockedT g st i = false ↔
      ∀ jj ∈ TRange g i,
        st.splitting.getD (g.Tj.getD jj 0) 0 = U_NODE →
        st.weight.getD (g.Tj.getD jj 0) 0 ≤ st.weight.getD i 0 := by
  constructor
  · intro hfalse jj hjj hU
    by_contra hgt
    rw [not_le] at hgt
    have htrue : cljpBlockedT g st i = true := by
      rw [cljpBlockedT, List.any_eq_true]
      refine ⟨jj, hjj, ?_⟩
      simp only [Bool.and_eq_true, beq_iff_eq, decide_eq_true_eq]
      exact ⟨hU, hgt⟩
    rw [hfalse] at htrue
    cases htrue
  · intro h
    rw [Bool.eq_false_iff]
    intro htrue
    rw [cljpBlockedT, List.any_eq_true] at htrue
    obtain ⟨jj, hjj, hbb⟩ := htrue
    simp only [Bool.and_eq_true, beq_iff_eq, decide_eq_true_eq] at hbb
    exact absurd hbb.2 (not_lt.mpr (h jj hjj hbb.1))

theorem cljp_select_mem_iff (g : SocGraph) (st : CljpState) (i : ℕ) :
    i ∈ cljpCands g st ↔
      (i < g.n ∧ st.splitting.getD i 0 = U_NODE ∧
        (∀ jj ∈ SRange g i,
          st.splitting.getD (g.Sj.getD jj 0) 0 = U_NODE →
          st.weight.getD (g.Sj.getD jj 0) 0 ≤ st.weight.getD i 0) ∧
        (∀ jj ∈ TRange g i,
          st.splitting.getD (g.Tj.getD jj 0) 0 = U_NODE →
          st.weight.getD (g.Tj.getD jj 0) 0 ≤ st.weight.getD i 0)) := by
  rw [cljpCands, List.mem_filter, List.mem_range, cljpIsCand]
  simp only [Bool.and_eq_true, beq_iff_eq, Bool.not_eq_true']
  rw [cljpBlockedS_false_iff, cljpBlockedT_false_iff]
  tauto

/-- Claim C1 (amended): a U-node `i` is selected in a round iff no node
`j` connected to `i` in `S` or `Sᵀ` that is still U has `weight[j] >
weight[i]` — non-strict dominance, equal weights do NOT block selection;
consequently, when `T` is the transpose of `S`, two nodes selected in the
same round that are adjacent in `S` must have equal weights. -/
theorem cljp_selection_rule (g : SocGraph) (st : CljpState) :
    (∀ i, i ∈ cljpCands g st ↔
      (i < g.n ∧ st.splitting.getD i 0 = U_NODE ∧
        (∀ jj ∈ SRange g i,
          st.splitting.getD (g.Sj.getD jj 0) 0 = U_NODE →
          st.weight.getD (g.Sj.getD jj 0) 0 ≤ st.weight.getD i 0) ∧
        (∀ jj ∈ TRange g i,
          st.splitting.getD (g.Tj.getD jj 0) 0 = U_NODE →
          st.weight.getD (g.Tj.getD jj 0) 0 ≤ st.weight.getD i 0))) ∧
    (TransposeOf g → ∀ i j, i ∈ cljpCands g st → j ∈ cljpCands g st →
      inSRow g i j → st.weight.getD i 0 = st.weight.getD j 0) := by
  refine ⟨fun i => cljp_select_mem_iff g st i, ?_⟩
  intro htr i j hi hj hsij
  obtain ⟨hin, hiU, hiS, hiT⟩ := (cljp_select_mem_iff g st i).mp hi
  obtain ⟨hjn, hjU, hjS, hjT⟩ := (cljp_select_mem_iff g st j).mp hj
  have hle1 : st.weight.getD j 0 ≤ st.weight.getD i 0 := by
    obtain ⟨jj, hjj, hje⟩ := hsij
    have := hiS jj hjj
    rw [hje] at this
    exact this hjU
  have hle2 : st.weight.getD i 0 ≤ st.weight.getD j 0 := by
    have htij : inTRow g j i := (htr i hin j hjn).mp hsij
    obtain ⟨kk, hkk, hke⟩ := htij
    have := hjT kk hkk
    rw [hke] at this
    exact this hiU
  exact le_antisymm hle2 hle1

theorem tieInit_weight :
    (cljpInit edgeGraph [1/2, 1/2]).weight = [3/2, 3/2] := by
  show cljpWeightInit edgeGraph [1/2, 1/2] = [3/2, 3/2]
  norm_num [cljpWeightInit, edgeGraph, SRange, List.range',
    List.range_succ]

theorem tieInit_mem_cands (i : ℕ) (hi : i < 2) :
    i ∈ cljpCands edgeGraph (cljpInit edgeGraph [1/2, 1/2]) := by
  rw [cljp_select_mem_iff]
  interval_cases i
  · refine ⟨by norm_num [edgeGraph], rfl, ?_, ?_⟩
    · intro jj hjj _
      have hjj0 : jj = 0 := by
        simpa [SRange, edgeGraph, List.range'] using hjj
      subst hjj0
      rw [tieInit_weight]
      norm_num [edgeGraph]
    · intro jj hjj _
      have hjj0 : jj = 0 := by
        simpa [TRange, edgeGraph, List.range'] using hjj
      subst hjj0
      rw [tieInit_weight]
      norm_num [edgeGraph]
  · refine ⟨by norm_num [edgeGraph], rfl, ?_, ?_⟩
    · intro jj hjj _
      have hjj1 : jj = 1 := by
        simpa [SRange, edgeGraph, List.range'] using hjj
      subst hjj1
      rw [tieInit_weight]
      norm_num [edgeGraph]
    · intro jj hjj _
      have hjj1 : jj = 1 := by
        simpa [TRange, edgeGraph, List.range'] using hjj
      subst hjj1
      rw [tieInit_weight]
      norm_num [edgeGraph]

/-- Claim C1 counterexample: on the symmetric one-edge graph, starting the
round from the state `cljp_naive_splitting` itself builds when both base
weights are 1/2 (both weights become 3/2), node 0 is selected although its
connected U-neighbour 1 does not have strictly smaller weight, and nodes 0
and 1 — adjacent in `S` — are both selected in the same round. -/
theorem cljp_select_tie_counterexample :
    0 ∈ cljpCands edgeGraph (cljpInit edgeGraph [1/2, 1/2]) ∧
    1 ∈ cljpCands edgeGraph (cljpInit edgeGraph [1/2, 1/2]) ∧
    inSRow edgeGraph 0 1 ∧
    (cljpInit edgeGraph [1/2, 1/2]).splitting.getD 1 0 = U_NODE ∧
    ¬ (cljpInit edgeGraph [1/2, 1/2]).weight.getD 1 0 <
        (cljpInit edgeGraph [1/2, 1/2]).weight.getD 0 0 := by
  refine ⟨tieInit_mem_cands 0 (by norm_num), tieInit_mem_cands 1 (by norm_num),
    ⟨0, by decide, rfl⟩, rfl, ?_⟩
  rw [tieInit_weight]
  norm_num

/-- Witness for the amended claim C1 theorem: on the tie instance the two
adjacent selected nodes indeed have equal weights. -/
theorem cljp_selection_rule_witness :
    (cljpInit edgeGraph [1/2, 1/2]).weight.getD 0 0 =
      (cljpInit edgeGraph [1/2, 1/2]).weight.getD 1 0 :=
  (cljp_selection_rule edgeGraph (cljpInit edgeGraph [1/2, 1/2])).2
    (by decide) 0 1 (tieInit_mem_cands 0 (by norm_num))
    (tieInit_mem_cands 1 (by norm_num)) ⟨0, by decide, rfl⟩
